import Mathlib

/-!
# Verification of the lease-document field-extraction engine

Shallow embedding of `src/main.py` (`process_lease_file`, lines 53-161).
The engine is a pure function from the concatenated lease text to a fixed
fourteen-field record.  Python regular expressions are embedded as
executable matchers over `List Char`; each matcher mirrors one concrete
regex from the source, with the backtracking analysis recorded in its
doc comment.  ASCII semantics are assumed throughout (the patterns and
sentinels in the source are all ASCII).
-/

/-! ## Character helpers -/

/-- ASCII lower-casing on code points: `re.IGNORECASE` comparison key.
Maps codes 65-90 (`A`-`Z`) to 97-122 (`a`-`z`), everything else unchanged. -/
def lowerCode (c : Char) : Nat :=
  if 65 ≤ c.toNat ∧ c.toNat ≤ 90 then c.toNat + 32 else c.toNat

/-- Python `\s` on ASCII: space, tab, newline, carriage return,
vertical tab, form feed (also the set stripped by `str.strip()`). -/
def isPyWs (c : Char) : Bool :=
  c.toNat = 32 || c.toNat = 9 || c.toNat = 10 || c.toNat = 13 || c.toNat = 11 || c.toNat = 12

/-- Embeds `\d`: ASCII digit. -/
def isDigitCh (c : Char) : Bool :=
  48 ≤ c.toNat && c.toNat ≤ 57

/-- Embeds `[\d,]`: digit or comma, the amount-capture class. -/
def isNumCh (c : Char) : Bool :=
  isDigitCh c || c.toNat = 44

/-- Embeds `[A-Za-z]`: ASCII letter. -/
def isAlphaCh (c : Char) : Bool :=
  (65 ≤ c.toNat && c.toNat ≤ 90) || (97 ≤ c.toNat && c.toNat ≤ 122)

/-- Two texts are case-equivalent when they agree pointwise up to ASCII
letter case — "differ only in letter case". -/
def CaseEq (l₁ l₂ : List Char) : Prop :=
  l₁.map lowerCode = l₂.map lowerCode

instance (l₁ l₂ : List Char) : Decidable (CaseEq l₁ l₂) :=
  inferInstanceAs (Decidable (_ = _))

/-! ## Case-insensitive literal matching

`ciMatch pat l` matches the literal `pat` at the head of `l` under
`re.IGNORECASE` (both sides compared through `lowerCode`), returning the
rest of the text on success. -/

def ciMatch : List Char → List Char → Option (List Char)
  | [], l => some l
  | _ :: _, [] => none
  | p :: ps, c :: cs => if lowerCode c = lowerCode p then ciMatch ps cs else none

/-- Case-insensitive substring test: `re.search(literal, text, re.IGNORECASE)`
as a boolean, and also Python `pat in text.lower()` for a lowercase `pat`. -/
def containsCI (pat : List Char) : List Char → Bool
  | [] => (ciMatch pat []).isSome
  | c :: cs => (ciMatch pat (c :: cs)).isSome || containsCI pat cs

/-- Greedy `\s*` directly before a letter-initial literal is deterministic:
backtracking to consume fewer whitespace characters leaves a whitespace
character where the literal's (non-whitespace) first character must match,
so it is equivalent to skipping all whitespace. -/
def skipWs (l : List Char) : List Char :=
  l.dropWhile isPyWs

/-! ## The financial-amount pattern family

Every financial field in the source uses a regex of the single shape
`w1\s*w2\s*...\s*wn[^$]{0,G}\$\s?([\d,]+(?:\.\d{2})?)` applied with
`re.IGNORECASE` (rent, security deposit, pet fee/deposit/charge, late fee,
insufficient-funds fee, nsf fee).  `finAt words G` matches that shape at
one position; `finSearch` is `re.search`, scanning positions left to
right. -/

/-- Match the remaining literal words, each preceded by `\s*`. -/
def wordsRest : List (List Char) → List Char → Option (List Char)
  | [], l => some l
  | w :: ws, l => (ciMatch w (skipWs l)).bind (wordsRest ws)

/-- Match `w1\s*w2\s*...\s*wn` at the head of the text (no leading `\s*`). -/
def wordsAt : List (List Char) → List Char → Option (List Char)
  | [], l => some l
  | w :: ws, l => (ciMatch w l).bind (wordsRest ws)

/-- Embeds `[^$]{0,n}\$`: greedy, but deterministic — `[^$]` can never consume a
dollar sign, so the unique viable match consumes exactly the characters up
to the first `$` within the budget and then the `$` itself. -/
def gapDollar : Nat → List Char → Option (List Char)
  | _, [] => none
  | 0, c :: cs => if c = '$' then some cs else none
  | n + 1, c :: cs => if c = '$' then some cs else gapDollar n cs

/-- Embeds `(?:\.\d{2})?` after the integer part: greedy, included exactly when a
dot followed by two digits is present. -/
def fracPart : List Char → List Char
  | c :: d1 :: d2 :: _ =>
    if c = '.' && isDigitCh d1 && isDigitCh d2 then [c, d1, d2] else []
  | _ => []

/-- Embeds `([\d,]+(?:\.\d{2})?)`: greedy maximal run of `[\d,]` (backtracking to a
shorter run cannot help: the optional part starts with `.`, which `[\d,]`
rejects), then the optional cents. -/
def capNum (l : List Char) : Option (List Char) :=
  let ds := l.takeWhile isNumCh
  if ds.isEmpty then none else some (ds ++ fracPart (l.drop ds.length))

/-- Embeds `\s?([\d,]+...)`: greedy `\s?` first tries to consume one whitespace
character; if no capture follows, the fallback without it also fails
because that whitespace character is not in `[\d,]`.  So: consume one
whitespace character when present, then require the capture. -/
def capAfterDollar : List Char → Option (List Char)
  | [] => none
  | c :: cs => if isPyWs c then capNum cs else capNum (c :: cs)

/-- The financial pattern anchored at the current position. -/
def finAt (words : List (List Char)) (gap : Nat) (l : List Char) : Option (List Char) :=
  (wordsAt words l).bind fun r => (gapDollar gap r).bind capAfterDollar

/-- Embeds `re.search` for the financial pattern: leftmost position wins; the
returned value is the capture group. -/
def finSearch (words : List (List Char)) (gap : Nat) : List Char → Option (List Char)
  | [] => finAt words gap []
  | c :: cs => (finAt words gap (c :: cs)).orElse fun _ => finSearch words gap cs

/-- Embeds `match_any(patterns, text)` (src/main.py lines 53-58): try each whole
pattern over the whole text in list order, return the first capture. -/
def match_any : List (List Char → Option (List Char)) → List Char → Option (List Char)
  | [], _ => none
  | p :: ps, t =>
    match p t with
    | some v => some v
    | none => match_any ps t

/-! ## The concrete financial fields (src/main.py lines 61-71, 73-75, 114-121) -/

/-- Embeds `rent` (lines 61-65): three rules in priority order. -/
def rentVal (t : List Char) : Option (List Char) :=
  match_any
    [ finSearch ["base".data, "rent".data] 20
    , finSearch ["monthly".data, "rent".data] 20
    , finSearch ["rent".data, "amount".data] 20 ] t

/-- Raw `deposit` capture (lines 67-69), before the override. -/
def depositCap (t : List Char) : Option (List Char) :=
  match_any [finSearch ["security".data, "deposit".data] 30] t

/-- Deposit override trigger (line 70):
`"not required to pay a security deposit" in lease_text.lower()`. -/
def depositOverride (t : List Char) : Bool :=
  containsCI "not required to pay a security deposit".data t

/-- Embeds `deposit` after the override (lines 67-71). -/
def depositVal (t : List Char) : Option (List Char) :=
  if depositOverride t then some "0.00".data else depositCap t

/-- Embeds `pet\s*(?:fee|deposit|charge)[^$]{0,20}\$\s?(...)` at one position
(line 74).  The three alternatives begin with distinct letters, so at most
one of them can match at a given position; trying the three full shapes in
order is the regex's backtracking order. -/
def petAt (l : List Char) : Option (List Char) :=
  ((finAt ["pet".data, "fee".data] 20 l).orElse fun _ =>
    finAt ["pet".data, "deposit".data] 20 l).orElse fun _ =>
    finAt ["pet".data, "charge".data] 20 l

/-- Embeds `re.search` for the pet-fee pattern. -/
def petSearch : List Char → Option (List Char)
  | [] => petAt []
  | c :: cs => (petAt (c :: cs)).orElse fun _ => petSearch cs

/-- Raw pet-fee capture (lines 73-75). -/
def petCap (t : List Char) : Option (List Char) :=
  match_any [petSearch] t

/-- Embeds `.*pat` tail under no-DOTALL: does `pat` occur (case-insensitively)
further right without crossing a `\n`? -/
def dotStarTo (pat : List Char) : List Char → Bool
  | [] => (ciMatch pat []).isSome
  | c :: cs => (ciMatch pat (c :: cs)).isSome || (c ≠ '\n' && dotStarTo pat cs)

/-- After the literal `pet`: optional `s` (greedy; for the boolean result
the order of the two branches is irrelevant), then `.*not permitted`
without crossing a newline. -/
def petsNPTail : List Char → Bool
  | [] => dotStarTo "not permitted".data []
  | c :: r' =>
    if lowerCode c = lowerCode 's' then
      dotStarTo "not permitted".data r' || dotStarTo "not permitted".data (c :: r')
    else dotStarTo "not permitted".data (c :: r')

/-- Embeds `pets?.*not permitted` at one position. -/
def petsNPAt (l : List Char) : Bool :=
  match ciMatch "pet".data l with
  | some r => petsNPTail r
  | none => false

/-- Embeds `re.search` for the second alternative of the pet override. -/
def petsNPSearch : List Char → Bool
  | [] => petsNPAt []
  | c :: cs => petsNPAt (c :: cs) || petsNPSearch cs

/-- Pet override trigger (line 76):
`re.search(r"no pets|pets?.*not permitted", lease_text, re.IGNORECASE)`
as a boolean — either alternative occurs somewhere. -/
def petOverrideFires (t : List Char) : Bool :=
  containsCI "no pets".data t || petsNPSearch t

/-- Embeds `pet_fee` after the override (lines 73-77). -/
def petFeeVal (t : List Char) : Option (List Char) :=
  if petOverrideFires t then some "Not applicable".data else petCap t

/-- Embeds `late_fee` (lines 114-116). -/
def lateFeeVal (t : List Char) : Option (List Char) :=
  match_any [finSearch ["late".data, "fee".data] 20] t

/-- Embeds `nsf_fee` (lines 118-121). -/
def nsfFeeVal (t : List Char) : Option (List Char) :=
  match_any
    [ finSearch ["insufficient".data, "funds".data, "fee".data] 20
    , finSearch ["nsf".data, "fee".data] 20 ] t

/-! ## Lease term dates (src/main.py lines 80-87)

`(?:begin|effective|from)\s+on\s+([A-Za-z]+\s*\d{1,2},?\s*\d{4})` and
`(?:end|until|to)\s+on\s+(...)`, both with `re.IGNORECASE`.  The capture
is assembled from the actual text characters.  Backtracking order inside
the capture: `\d{1,2}` prefers two digits, then `,?` prefers the comma;
`[A-Za-z]+` and each `\s*` before a non-member character are greedy and
deterministic. -/

/-- Embeds `\s*\d{4}` at the end of the date capture, prefixed by what was
captured so far. -/
def dateYear (pre : List Char) (l : List Char) : Option (List Char) :=
  let w := l.takeWhile isPyWs
  match l.drop w.length with
  | a :: b :: c :: d :: _ =>
    if isDigitCh a && isDigitCh b && isDigitCh c && isDigitCh d then
      some (pre ++ w ++ [a, b, c, d])
    else none
  | _ => none

/-- Embeds `,?\s*\d{4}`: greedy `,?` — the branch with the comma is tried first. -/
def dateComma (pre : List Char) (l : List Char) : Option (List Char) :=
  (match l with
    | ',' :: r => dateYear (pre ++ [',']) r
    | _ => none).orElse fun _ => dateYear pre l

/-- Embeds `\d{1,2},?\s*\d{4}`: greedy `\d{1,2}` — two digits tried before one. -/
def dateDay (pre : List Char) (l : List Char) : Option (List Char) :=
  (match l with
    | a :: b :: r => if isDigitCh a && isDigitCh b then dateComma (pre ++ [a, b]) r else none
    | _ => none).orElse fun _ =>
    match l with
    | a :: r => if isDigitCh a then dateComma (pre ++ [a]) r else none
    | _ => none

/-- The date capture `([A-Za-z]+\s*\d{1,2},?\s*\d{4})` at one position. -/
def dateCap (l : List Char) : Option (List Char) :=
  let letters := l.takeWhile isAlphaCh
  if letters.isEmpty then none
  else
    let r := l.drop letters.length
    let w := r.takeWhile isPyWs
    dateDay (letters ++ w) (r.drop w.length)

/-- One marker alternative, then `\s+on\s+`, then the date capture.  The
markers of each group start with pairwise distinct letters, so at most one
alternative matches at a position. -/
def dateAt (markers : List (List Char)) (l : List Char) : Option (List Char) :=
  match markers with
  | [] => none
  | m :: ms =>
    (match ciMatch m l with
      | some r =>
        let w1 := r.takeWhile isPyWs
        if w1.isEmpty then none
        else match ciMatch "on".data (r.drop w1.length) with
          | some r2 =>
            let w2 := r2.takeWhile isPyWs
            if w2.isEmpty then none else dateCap (r2.drop w2.length)
          | none => none
      | none => none).orElse fun _ => dateAt ms l

/-- Embeds `re.search` for a date pattern. -/
def dateSearch (markers : List (List Char)) : List Char → Option (List Char)
  | [] => dateAt markers []
  | c :: cs => (dateAt markers (c :: cs)).orElse fun _ => dateSearch markers cs

/-- Embeds `start_pattern` (lines 80-83). -/
def startDateVal (t : List Char) : Option (List Char) :=
  dateSearch ["begin".data, "effective".data, "from".data] t

/-- Embeds `end_pattern` (lines 84-87). -/
def endDateVal (t : List Char) : Option (List Char) :=
  dateSearch ["end".data, "until".data, "to".data] t

/-! ## Clause flags (src/main.py lines 123-128) -/

/-- Embeds `not required to maintain renter.?s insurance` at one position:
the literal head, then greedy `.?` (one non-newline character or nothing;
for the boolean result the order is irrelevant), then the literal tail. -/
def insuranceAt (l : List Char) : Bool :=
  match ciMatch "not required to maintain renter".data l with
  | some r =>
    (match r with
      | c :: r' =>
        (c ≠ '\n' && (ciMatch "s insurance".data r').isSome) ||
          (ciMatch "s insurance".data r).isSome
      | [] => (ciMatch "s insurance".data r).isSome)
  | none => false

/-- Embeds `re.search` for the insurance-waiver pattern. -/
def insuranceSearch : List Char → Bool
  | [] => insuranceAt []
  | c :: cs => insuranceAt (c :: cs) || insuranceSearch cs

/-- Embeds `insurance_required` (lines 123-125). -/
def insuranceRequired (t : List Char) : Bool :=
  !insuranceSearch t

/-- Embeds `eviction_clause` (lines 126-128): boolean presence of any alternative
of `evict|eviction|default|termination notice`, case-insensitively. -/
def evictionClause (t : List Char) : Bool :=
  containsCI "evict".data t || containsCI "eviction".data t ||
    containsCI "default".data t || containsCI "termination notice".data t

/-! ## A small backtracking regex engine

Used for the three structured patterns (landlord, tenant block, address)
whose captures are only ever evaluated on concrete inputs.  `mat` returns
the list of (consumed, rest) pairs in the regex backtracking priority
order: alternation is left first, `star` is greedy (more iterations
first, empty last; iterations that consume nothing are dropped, which is
irrelevant here since no starred subpattern below is nullable).  The fuel
parameter only bounds the recursion depth; `matFuel` is always large
enough for the patterns below. -/

inductive RE where
  | eps : RE
  | cls : (Char → Bool) → RE
  | cat : RE → RE → RE
  | alt : RE → RE → RE
  | star : RE → RE

def mat : Nat → RE → List Char → List (List Char × List Char)
  | 0, _, _ => []
  | _ + 1, .eps, l => [([], l)]
  | _ + 1, .cls _, [] => []
  | _ + 1, .cls f, c :: cs => if f c then [([c], cs)] else []
  | n + 1, .cat a b, l =>
    (mat n a l).flatMap fun p => (mat n b p.2).map fun q => (p.1 ++ q.1, q.2)
  | n + 1, .alt a b, l => mat n a l ++ mat n b l
  | n + 1, .star a, l =>
    (((mat n a l).filter fun p => !p.1.isEmpty).flatMap fun p =>
      (mat n (.star a) p.2).map fun q => (p.1 ++ q.1, q.2)) ++ [([], l)]

/-- Depth budget: generous bound on the nesting depth of `mat`'s recursion
for the fixed patterns below (their tree depth is under 40) on a text of
the given length. -/
def matFuel (l : List Char) : Nat :=
  (l.length + 2) * 64

/-- Literal character. -/
def rchr (c : Char) : RE :=
  .cls fun x => x = c

/-- Case-sensitive literal string. -/
def rlit (s : List Char) : RE :=
  s.foldr (fun c r => .cat (rchr c) r) .eps

/-- Case-insensitive literal string (`re.IGNORECASE`). -/
def rlitCI (s : List Char) : RE :=
  s.foldr (fun c r => .cat (.cls fun x => lowerCode x = lowerCode c) r) .eps

def ropt (r : RE) : RE := .alt r .eps

def rplus (r : RE) : RE := .cat r (.star r)

/-- Embeds `r{1,3}` greedy: three repetitions tried first, then two, then one. -/
def rep13 (r : RE) : RE :=
  .alt (.cat r (.cat r r)) (.alt (.cat r r) r)

def clsWs : RE := .cls isPyWs

def clsUpper : RE := .cls fun c => 65 ≤ c.toNat && c.toNat ≤ 90

def clsLower : RE := .cls fun c => 97 ≤ c.toNat && c.toNat ≤ 122

/-- Embeds `[A-Z]` (and `[a-z]`) under `re.IGNORECASE`: any ASCII letter. -/
def clsAlphaCI : RE := .cls isAlphaCh

/-- Embeds `.` without DOTALL. -/
def clsDot : RE := .cls fun c => c ≠ '\n'

/-- Group-then-suffix search at one position: the first (in priority
order) group candidate whose remainder admits the suffix wins, and its
consumed text is `group(1)`. -/
def reCapAt (g s : RE) (l : List Char) : Option (List Char) :=
  (((mat (matFuel l) g l).filter fun p => !(mat (matFuel l) s p.2).isEmpty).head?).map
    fun p => p.1

/-- Embeds `re.search` for a group-then-suffix pattern. -/
def reSearch (g s : RE) : List Char → Option (List Char)
  | [] => reCapAt g s []
  | c :: cs => (reCapAt g s (c :: cs)).orElse fun _ => reSearch g s cs

/-- Prefix-then-group search at one position: for the first prefix
candidate (in priority order) continue with the group; `group(1)` is the
group's consumed text.  The pattern ends with the group. -/
def reCapAfter (p g : RE) (l : List Char) : Option (List Char) :=
  ((mat (matFuel l) p l).flatMap fun r => (mat (matFuel l) g r.2).map fun q => q.1).head?

/-- Embeds `re.search` for a prefix-then-group pattern. -/
def reSearchAfter (p g : RE) : List Char → Option (List Char)
  | [] => reCapAfter p g []
  | c :: cs => (reCapAfter p g (c :: cs)).orElse fun _ => reSearchAfter p g cs

/-! ## Landlord, tenant, address (src/main.py lines 90-111) -/

/-- Embeds `[A-Z][a-z]+(?:\s[A-Z][a-z]+){1,3}` under `re.IGNORECASE`: both
character classes collapse to "ASCII letter". -/
def nameGroupCI : RE :=
  .cat clsAlphaCI (.cat (rplus clsAlphaCI) (rep13 (.cat clsWs (.cat clsAlphaCI (rplus clsAlphaCI)))))

/-- Rule 1 (line 91): `([A-Z][a-z]+(?:\s[A-Z][a-z]+){1,3})\s*\(Landlord\)`,
searched with `re.IGNORECASE`. -/
def landlordRule1 (t : List Char) : Option (List Char) :=
  reSearch nameGroupCI
    (.cat (.star clsWs) (.cat (rchr '(') (.cat (rlitCI "Landlord".data) (rchr ')')))) t

/-- Rule 2 (line 92): `Landlord[:\s-]+([A-Z][a-z]+(?:\s[A-Z][a-z]+){1,3})`,
searched with `re.IGNORECASE`. -/
def landlordRule2 (t : List Char) : Option (List Char) :=
  reSearchAfter
    (.cat (rlitCI "Landlord".data) (rplus (.cls fun c => c = ':' || isPyWs c || c = '-')))
    nameGroupCI t

/-- Embeds `landlord` (lines 90-93). -/
def landlordVal (t : List Char) : Option (List Char) :=
  match_any [landlordRule1, landlordRule2] t

/-- One case-sensitive name: `[A-Z][a-z]+`. -/
def nameCS : RE :=
  .cat clsUpper (rplus clsLower)

/-- The tenant capture group (line 96, no `re.IGNORECASE`):
`[A-Z][a-z]+(?:\s[A-Z][a-z]+)?(?:\s*(?:and|,)\s*[A-Z][a-z]+(?:\s[A-Z][a-z]+)?)*`. -/
def tenantGroup : RE :=
  .cat nameCS (.cat (ropt (.cat clsWs nameCS))
    (.star (.cat (.star clsWs) (.cat (.alt (rlit "and".data) (rlit ",".data))
      (.cat (.star clsWs) (.cat nameCS (ropt (.cat clsWs nameCS))))))))

/-- Embeds `tenant_block` (lines 95-98): the group above then `\s*\(.*Tenant`,
case-sensitively. -/
def tenantVal (t : List Char) : Option (List Char) :=
  reSearch tenantGroup
    (.cat (.star clsWs) (.cat (rchr '(') (.cat (.star clsDot) (rlit "Tenant".data)))) t

/-- Embeds `\d`. -/
def isDigitRE : RE := .cls isDigitCh

/-- Embeds `\d{3,6}` greedy: six digits down to three. -/
def digits36 : RE :=
  .alt (.cat isDigitRE (.cat isDigitRE (.cat isDigitRE (.cat isDigitRE (.cat isDigitRE isDigitRE)))))
    (.alt (.cat isDigitRE (.cat isDigitRE (.cat isDigitRE (.cat isDigitRE isDigitRE))))
      (.alt (.cat isDigitRE (.cat isDigitRE (.cat isDigitRE isDigitRE)))
        (.cat isDigitRE (.cat isDigitRE isDigitRE))))

/-- Embeds `[A-Za-z\s]+`. -/
def alphaWsPlus : RE :=
  rplus (.cls fun c => isAlphaCh c || isPyWs c)

/-- Embeds `(?:TX|Texas)`. -/
def txRE : RE :=
  .alt (rlit "TX".data) (rlit "Texas".data)

/-- Embeds `\d{5}`. -/
def digits5 : RE :=
  .cat isDigitRE (.cat isDigitRE (.cat isDigitRE (.cat isDigitRE isDigitRE)))

/-- Address pattern 1 (lines 102-105, case-sensitive):
`for\s+(\d{3,6}\s+[A-Za-z\s]+,\s*[A-Za-z\s]+,\s*(?:TX|Texas)\s*\d{5})`. -/
def addressRule1 (t : List Char) : Option (List Char) :=
  reSearchAfter (.cat (rlit "for".data) (rplus clsWs))
    (.cat digits36 (.cat (rplus clsWs) (.cat alphaWsPlus (.cat (rchr ',')
      (.cat (.star clsWs) (.cat alphaWsPlus (.cat (rchr ',')
        (.cat (.star clsWs) (.cat txRE (.cat (.star clsWs) digits5)))))))))) t

/-- Address pattern 2 (lines 107-110, case-sensitive):
`(\d{3,6}\s+[A-Za-z\s]+(?:Dr|Street|Ave|Road|Ln|Ct)[\s,]+[A-Za-z\s]+,\s*(?:TX|Texas)\s*\d{5})`. -/
def addressRule2 (t : List Char) : Option (List Char) :=
  reSearch
    (.cat digits36 (.cat (rplus clsWs) (.cat alphaWsPlus
      (.cat (.alt (rlit "Dr".data) (.alt (rlit "Street".data) (.alt (rlit "Ave".data)
        (.alt (rlit "Road".data) (.alt (rlit "Ln".data) (rlit "Ct".data))))))
        (.cat (rplus (.cls fun c => isPyWs c || c = ',')) (.cat alphaWsPlus (.cat (rchr ',')
          (.cat (.star clsWs) (.cat txRE (.cat (.star clsWs) digits5))))))))))
    .eps t

/-- Embeds `address_match` chain (lines 102-111): pattern 1, else pattern 2. -/
def addressVal (t : List Char) : Option (List Char) :=
  (addressRule1 t).orElse fun _ => addressRule2 t

/-! ## Record assembly (src/main.py lines 131-161) -/

/-- A record value: Python string or boolean. -/
inductive FieldVal where
  | str : String → FieldVal
  | flag : Bool → FieldVal
deriving DecidableEq

/-- Python truthiness for a string-or-None variable:
`None` and the empty string are falsy. -/
def pyTruthy : Option (List Char) → Bool
  | none => false
  | some s => !s.isEmpty

def boolToNat (b : Bool) : Nat :=
  if b then 1 else 0

/-- Embeds `confidence` numerator (lines 131-136):
`bool(rent) + bool(deposit) + bool(start_pattern) + bool(end_pattern)` —
the deposit is taken after its override; the date terms are the
truthiness of the match objects. -/
def foundCount (t : List Char) : Nat :=
  boolToNat (pyTruthy (rentVal t)) + boolToNat (pyTruthy (depositVal t)) +
    boolToNat (startDateVal t).isSome + boolToNat (endDateVal t).isSome

/-- Embeds `f"{confidence * 100:.0f}%"` for `confidence = n / 4` (line 152); the
numerator is a sum of four indicator values, so only 0-4 occur. -/
def pctStr : Nat → String
  | 0 => "0%"
  | 1 => "25%"
  | 2 => "50%"
  | 3 => "75%"
  | _ => "100%"

/-- Embeds `f"${x}" if x else "Not found"` (lines 143-145, 148-149). -/
def moneyStr (o : Option (List Char)) : String :=
  if pyTruthy o then "$" ++ String.mk (o.getD []) else "Not found"

/-- Embeds `x if x else "Not found"` for a string-or-None variable
(lines 140-141). -/
def orNotFound (o : Option (List Char)) : String :=
  if pyTruthy o then String.mk (o.getD []) else "Not found"

/-- Embeds `group(1) if match else "Not found"` (lines 99, 146-147). -/
def groupOrNotFound (o : Option (List Char)) : String :=
  match o with
  | some s => String.mk s
  | none => "Not found"

/-- Embeds `lease_text[:400] + "..."` (line 153). -/
def previewStr (t : List Char) : String :=
  String.mk (t.take 400 ++ "...".data)

/-- The `details` dict literal (lines 139-154), before the clean-up pass.
Python dicts preserve insertion order, so an ordered association list is
the faithful image. -/
def rawDetails (t : List Char) : List (String × FieldVal) :=
  [ ("Property Address", .str (orNotFound (addressVal t)))
  , ("Landlord Name", .str (orNotFound (landlordVal t)))
  , ("Tenant Name(s)", .str (groupOrNotFound (tenantVal t)))
  , ("Rent Amount", .str (moneyStr (rentVal t)))
  , ("Security Deposit", .str (moneyStr (depositVal t)))
  , ("Pet Fee", .str (moneyStr (petFeeVal t)))
  , ("Lease Start Date", .str (groupOrNotFound (startDateVal t)))
  , ("Lease End Date", .str (groupOrNotFound (endDateVal t)))
  , ("Late Fee", .str (moneyStr (lateFeeVal t)))
  , ("NSF Fee", .str (moneyStr (nsfFeeVal t)))
  , ("Insurance Required", .flag (insuranceRequired t))
  , ("Eviction Clause Present", .flag (evictionClause t))
  , ("Extraction Confidence", .str (pctStr (foundCount t)))
  , ("Lease Text Preview", .str (previewStr t)) ]

/-- Embeds `str.strip()` on the left: drop leading whitespace. -/
def trimLeft (l : List Char) : List Char :=
  l.dropWhile isPyWs

/-- Embeds `str.strip()`: drop leading and trailing whitespace (ASCII set). -/
def pyStrip (l : List Char) : List Char :=
  ((trimLeft l).reverse.dropWhile isPyWs).reverse

/-- Embeds `v.replace("\n", " ").strip()` (line 159). -/
def sanitizeStr (s : String) : String :=
  String.mk (pyStrip (s.data.map fun c => if c = '\n' then ' ' else c))

/-- The clean-up pass (lines 156-159): sanitize every string value. -/
def sanitizeField : String × FieldVal → String × FieldVal
  | (k, .str s) => (k, .str (sanitizeStr s))
  | (k, .flag b) => (k, .flag b)

/-- The extraction engine: lease text in, `lease_details` record out
(lines 53-161 of src/main.py, with PDF reading and transport stripped). -/
def processLease (t : List Char) : List (String × FieldVal) :=
  (rawDetails t).map sanitizeField

/-- Dictionary lookup in the produced record. -/
def getField : List (String × FieldVal) → String → Option FieldVal
  | [], _ => none
  | (k, v) :: r, key => if k = key then some v else getField r key

/-! ## Projection lemmas: each record field of the sanitized output -/

theorem getField_address (t : List Char) :
    getField (processLease t) "Property Address" = some (.str (sanitizeStr (orNotFound (addressVal t)))) := rfl

theorem getField_rent (t : List Char) :
    getField (processLease t) "Rent Amount" = some (.str (sanitizeStr (moneyStr (rentVal t)))) := rfl

theorem getField_deposit (t : List Char) :
    getField (processLease t) "Security Deposit" = some (.str (sanitizeStr (moneyStr (depositVal t)))) := rfl

theorem getField_petFee (t : List Char) :
    getField (processLease t) "Pet Fee" = some (.str (sanitizeStr (moneyStr (petFeeVal t)))) := rfl

theorem getField_lateFee (t : List Char) :
    getField (processLease t) "Late Fee" = some (.str (sanitizeStr (moneyStr (lateFeeVal t)))) := rfl

theorem getField_nsfFee (t : List Char) :
    getField (processLease t) "NSF Fee" = some (.str (sanitizeStr (moneyStr (nsfFeeVal t)))) := rfl

theorem getField_confidence (t : List Char) :
    getField (processLease t) "Extraction Confidence" = some (.str (sanitizeStr (pctStr (foundCount t)))) := rfl

theorem getField_preview (t : List Char) :
    getField (processLease t) "Lease Text Preview" = some (.str (sanitizeStr (previewStr t))) := rfl

theorem getField_tenant (t : List Char) :
    getField (processLease t) "Tenant Name(s)" = some (.str (sanitizeStr (groupOrNotFound (tenantVal t)))) := rfl

/-! ## Small output-shape helpers -/

theorem sanitizeStr_pctStr (n : Nat) : sanitizeStr (pctStr n) = pctStr n := by
  match n with
  | 0 => rfl
  | 1 => rfl
  | 2 => rfl
  | 3 => rfl
  | _ + 4 => rfl

theorem pctStr_mem (n : Nat) :
    pctStr n = "0%" ∨ pctStr n = "25%" ∨ pctStr n = "50%" ∨ pctStr n = "75%" ∨
      pctStr n = "100%" := by
  match n with
  | 0 => exact Or.inl rfl
  | 1 => exact Or.inr (Or.inl rfl)
  | 2 => exact Or.inr (Or.inr (Or.inl rfl))
  | 3 => exact Or.inr (Or.inr (Or.inr (Or.inl rfl)))
  | _ + 4 => exact Or.inr (Or.inr (Or.inr (Or.inr rfl)))

/-! ## Claim theorems (first batch) -/

/-- C6: for every input text the returned record has exactly the fixed
fourteen named fields, in order, every one populated — extraction is
total and never errors on an absent field. -/
theorem record_shape (t : List Char) :
    (processLease t).map Prod.fst =
      [ "Property Address", "Landlord Name", "Tenant Name(s)", "Rent Amount"
      , "Security Deposit", "Pet Fee", "Lease Start Date", "Lease End Date"
      , "Late Fee", "NSF Fee", "Insurance Required", "Eviction Clause Present"
      , "Extraction Confidence", "Lease Text Preview" ] ∧
    (processLease t).length = 14 :=
  ⟨rfl, rfl⟩

/-- C9: extraction is deterministic and idempotent — it is a pure function
of the text, so two runs on the same text yield identical records; no
hidden state or randomness enters the embedding. -/
theorem extraction_deterministic (t₁ t₂ : List Char) (h : t₁ = t₂) :
    processLease t₁ = processLease t₂ := by
  rw [h]

theorem extraction_deterministic_witness :
    "lease text".data = "lease text".data ∧
      processLease "lease text".data = processLease "lease text".data :=
  ⟨rfl, extraction_deterministic "lease text".data "lease text".data rfl⟩

/-- C1 (amended): when the pet override fires, the `Pet Fee` field of the
returned record is exactly `"$Not applicable"` — the forced value
`"Not applicable"` rendered through the `f"${pet_fee}"` currency
formatter of line 145, not the bare `"Not applicable"`. -/
theorem pet_fee_override_value (t : List Char) (h : petOverrideFires t = true) :
    getField (processLease t) "Pet Fee" = some (.str "$Not applicable") := by
  have h1 : petFeeVal t = some "Not applicable".data := by
    simp [petFeeVal, h]
  rw [getField_petFee, h1]
  rfl

theorem pet_fee_override_value_witness :
    petOverrideFires "Pet fee: $300.00. No pets allowed.".data = true ∧
      getField (processLease "Pet fee: $300.00. No pets allowed.".data) "Pet Fee" =
        some (.str "$Not applicable") :=
  ⟨by decide, pet_fee_override_value "Pet fee: $300.00. No pets allowed.".data (by decide)⟩

/-- C1 counterexample: a text with a captured numeric pet fee and the
phrase "No pets" — the override fires, yet the record field is not the
claimed `"Not applicable"` (it is `"$Not applicable"`). -/
theorem pet_fee_claim_counterexample :
    petOverrideFires "Pet fee: $300.00. No pets allowed.".data = true ∧
      petCap "Pet fee: $300.00. No pets allowed.".data = some "300.00".data ∧
      getField (processLease "Pet fee: $300.00. No pets allowed.".data) "Pet Fee" ≠
        some (.str "Not applicable") := by
  refine ⟨by decide, by decide, ?_⟩
  decide

/-- C5: a text with both a captured deposit number and the override phrase
"not required to pay a security deposit" always yields the zero-amount
`Security Deposit` value `"$0.00"`, never the captured positive number. -/
theorem deposit_override_forces_zero (t : List Char)
    (_hcap : (depositCap t).isSome = true) (hph : depositOverride t = true) :
    getField (processLease t) "Security Deposit" = some (.str "$0.00") := by
  have h1 : depositVal t = some "0.00".data := by
    simp [depositVal, hph]
  rw [getField_deposit, h1]
  rfl

theorem deposit_override_forces_zero_witness :
    (depositCap "Security Deposit: $500.00. You are not required to pay a security deposit.".data).isSome = true ∧
      depositOverride "Security Deposit: $500.00. You are not required to pay a security deposit.".data = true ∧
      getField (processLease "Security Deposit: $500.00. You are not required to pay a security deposit.".data)
        "Security Deposit" = some (.str "$0.00") :=
  ⟨by decide, by decide,
    deposit_override_forces_zero
      "Security Deposit: $500.00. You are not required to pay a security deposit.".data
      (by decide) (by decide)⟩

/-- C4: the `Extraction Confidence` field is the number of found fields
among exactly rent, deposit, start date, end date, divided by four and
rendered as a whole-number percentage in {0%, 25%, 50%, 75%, 100%}; a
value set by the deposit override still counts as found. -/
theorem confidence_formula (t : List Char) :
    getField (processLease t) "Extraction Confidence" =
      some (.str (pctStr (foundCount t))) ∧
    foundCount t =
      boolToNat (pyTruthy (rentVal t)) + boolToNat (pyTruthy (depositVal t)) +
        boolToNat (startDateVal t).isSome + boolToNat (endDateVal t).isSome ∧
    (pctStr (foundCount t) = "0%" ∨ pctStr (foundCount t) = "25%" ∨
      pctStr (foundCount t) = "50%" ∨ pctStr (foundCount t) = "75%" ∨
      pctStr (foundCount t) = "100%") ∧
    (depositOverride t = true → pyTruthy (depositVal t) = true) := by
  refine ⟨?_, rfl, pctStr_mem _, ?_⟩
  · rw [getField_confidence, sanitizeStr_pctStr]
  · intro h
    simp [depositVal, h]
    rfl

theorem confidence_formula_witness :
    getField (processLease "begin on May 1, 2025 and end on May 1, 2026".data)
        "Extraction Confidence" =
      some (.str (pctStr (foundCount "begin on May 1, 2025 and end on May 1, 2026".data))) ∧
      pctStr (foundCount "begin on May 1, 2025 and end on May 1, 2026".data) = "50%" :=
  ⟨(confidence_formula "begin on May 1, 2025 and end on May 1, 2026".data).1, by decide⟩

/-- C7: `match_any` rule order is a priority order, not a document order —
for every rule list and text, a capture from the first rule wins no
matter where the later rules' phrasings occur in the text, and only when
the first rule matches nowhere do the remaining rules decide. -/
theorem match_any_priority (p : List Char → Option (List Char))
    (ps : List (List Char → Option (List Char))) (t : List Char) :
    (∀ v, p t = some v → match_any (p :: ps) t = some v) ∧
    (p t = none → match_any (p :: ps) t = match_any ps t) := by
  constructor
  · intro v hv
    simp [match_any, hv]
  · intro h
    simp [match_any, h]

/-- Witness: in "Monthly rent is $900. Base rent: $700." the second rule's
phrasing appears first positionally, but the first rule (base rent) still
decides the rent capture. -/
theorem match_any_priority_witness :
    finSearch ["base".data, "rent".data] 20 "Monthly rent is $900. Base rent: $700.".data =
      some "700".data ∧
    finSearch ["monthly".data, "rent".data] 20 "Monthly rent is $900. Base rent: $700.".data =
      some "900".data ∧
    rentVal "Monthly rent is $900. Base rent: $700.".data = some "700".data :=
  ⟨by decide, by decide,
    (match_any_priority (finSearch ["base".data, "rent".data] 20)
      [ finSearch ["monthly".data, "rent".data] 20
      , finSearch ["rent".data, "amount".data] 20 ]
      "Monthly rent is $900. Base rent: $700.".data).1 "700".data (by decide)⟩

/-! ## No-dollar lemmas: every financial matcher needs a `$` character -/

theorem ciMatch_suffix : ∀ (pat l r : List Char), ciMatch pat l = some r → r <:+ l := by
  intro pat
  induction pat with
  | nil =>
    intro l r h
    simp [ciMatch] at h
    exact h ▸ List.suffix_refl l
  | cons p ps ih =>
    intro l r h
    match l with
    | [] => simp [ciMatch] at h
    | c :: cs =>
      rw [ciMatch] at h
      split at h
      · exact (ih cs r h).trans (List.suffix_cons c cs)
      · exact absurd h (by simp)

theorem skipWs_suffix (l : List Char) : skipWs l <:+ l :=
  List.dropWhile_suffix isPyWs

theorem wordsRest_suffix : ∀ (ws : List (List Char)) (l r : List Char),
    wordsRest ws l = some r → r <:+ l := by
  intro ws
  induction ws with
  | nil =>
    intro l r h
    simp [wordsRest] at h
    exact h ▸ List.suffix_refl l
  | cons w ws ih =>
    intro l r h
    rw [wordsRest] at h
    match hm : ciMatch w (skipWs l) with
    | none => rw [hm] at h; simp at h
    | some m =>
      rw [hm] at h
      simp at h
      exact ((ih m r h).trans (ciMatch_suffix w (skipWs l) m hm)).trans (skipWs_suffix l)

theorem wordsAt_suffix : ∀ (ws : List (List Char)) (l r : List Char),
    wordsAt ws l = some r → r <:+ l := by
  intro ws l r h
  match ws with
  | [] =>
    simp [wordsAt] at h
    exact h ▸ List.suffix_refl l
  | w :: ws =>
    rw [wordsAt] at h
    match hm : ciMatch w l with
    | none => rw [hm] at h; simp at h
    | some m =>
      rw [hm] at h
      simp at h
      exact (wordsRest_suffix ws m r h).trans (ciMatch_suffix w l m hm)

theorem gapDollar_none {l : List Char} (h : '$' ∉ l) : ∀ n, gapDollar n l = none := by
  induction l with
  | nil =>
    intro n
    match n with
    | 0 => rfl
    | _ + 1 => rfl
  | cons c cs ih =>
    intro n
    have hc : c ≠ '$' := fun hc => h (hc ▸ List.mem_cons_self c cs)
    have hcs : '$' ∉ cs := fun hm => h (List.mem_cons_of_mem c hm)
    match n with
    | 0 => rw [gapDollar, if_neg hc]
    | m + 1 => rw [gapDollar, if_neg hc]; exact ih hcs m

theorem finAt_none {l : List Char} (h : '$' ∉ l) (ws : List (List Char)) (g : Nat) :
    finAt ws g l = none := by
  rw [finAt]
  match hw : wordsAt ws l with
  | none => rfl
  | some r =>
    have hr : '$' ∉ r := fun hm => h ((wordsAt_suffix ws l r hw).subset hm)
    simp [gapDollar_none hr]

theorem finSearch_none {l : List Char} (h : '$' ∉ l) (ws : List (List Char)) (g : Nat) :
    finSearch ws g l = none := by
  induction l with
  | nil => exact finAt_none h ws g
  | cons c cs ih =>
    have hcs : '$' ∉ cs := fun hm => h (List.mem_cons_of_mem c hm)
    rw [finSearch, finAt_none h ws g]
    simp [ih hcs]

theorem petAt_none {l : List Char} (h : '$' ∉ l) : petAt l = none := by
  rw [petAt]
  simp [finAt_none h]

theorem petSearch_none {l : List Char} (h : '$' ∉ l) : petSearch l = none := by
  induction l with
  | nil => exact petAt_none h
  | cons c cs ih =>
    have hcs : '$' ∉ cs := fun hm => h (List.mem_cons_of_mem c hm)
    rw [petSearch, petAt_none h]
    simp [ih hcs]

/-- C2 (amended): for every input text with no dollar-sign character at
all and neither override trigger present, the five financial fields
Rent Amount, Security Deposit, Pet Fee, Late Fee and NSF Fee are all the
"Not found" sentinel (the financial patterns all require a literal `$`). -/
theorem no_dollar_fields_not_found (t : List Char) (hd : '$' ∉ t)
    (h1 : depositOverride t = false) (h2 : petOverrideFires t = false) :
    getField (processLease t) "Rent Amount" = some (.str "Not found") ∧
    getField (processLease t) "Security Deposit" = some (.str "Not found") ∧
    getField (processLease t) "Pet Fee" = some (.str "Not found") ∧
    getField (processLease t) "Late Fee" = some (.str "Not found") ∧
    getField (processLease t) "NSF Fee" = some (.str "Not found") := by
  have hr : rentVal t = none := by
    simp [rentVal, match_any, finSearch_none hd]
  have hdep : depositVal t = none := by
    simp [depositVal, h1, depositCap, match_any, finSearch_none hd]
  have hpet : petFeeVal t = none := by
    simp [petFeeVal, h2, petCap, match_any, petSearch_none hd]
  have hlate : lateFeeVal t = none := by
    simp [lateFeeVal, match_any, finSearch_none hd]
  have hnsf : nsfFeeVal t = none := by
    simp [nsfFeeVal, match_any, finSearch_none hd]
  refine ⟨?_, ?_, ?_, ?_, ?_⟩
  · rw [getField_rent, hr]; rfl
  · rw [getField_deposit, hdep]; rfl
  · rw [getField_petFee, hpet]; rfl
  · rw [getField_lateFee, hlate]; rfl
  · rw [getField_nsfFee, hnsf]; rfl

theorem no_dollar_fields_not_found_witness :
    ('$' ∉ "Rent amount to be determined. Late fee applies.".data) ∧
      getField (processLease "Rent amount to be determined. Late fee applies.".data)
        "Rent Amount" = some (.str "Not found") ∧
      getField (processLease "Rent amount to be determined. Late fee applies.".data)
        "NSF Fee" = some (.str "Not found") := by
  refine ⟨by decide, ?_, ?_⟩
  · exact (no_dollar_fields_not_found "Rent amount to be determined. Late fee applies.".data
      (by decide) (by decide) (by decide)).1
  · exact (no_dollar_fields_not_found "Rent amount to be determined. Late fee applies.".data
      (by decide) (by decide) (by decide)).2.2.2.2

/-- C2 counterexample: a text without any dollar amount whose override
phrases fire — Security Deposit becomes "$0.00" and Pet Fee becomes
"$Not applicable", not the claimed "Not found". -/
theorem no_dollar_claim_counterexample :
    ('$' ∉ "No pets. You are not required to pay a security deposit.".data) ∧
      getField (processLease "No pets. You are not required to pay a security deposit.".data)
        "Security Deposit" = some (.str "$0.00") ∧
      getField (processLease "No pets. You are not required to pay a security deposit.".data)
        "Pet Fee" = some (.str "$Not applicable") := by
  refine ⟨by decide, by decide, by decide⟩

/-! ## Sanitization lemmas -/

theorem head_dropWhile_not (p : Char → Bool) :
    ∀ (l : List Char) (c : Char), (l.dropWhile p).head? = some c → p c = false := by
  intro l
  induction l with
  | nil => intro c h; simp at h
  | cons a as ih =>
    intro c h
    rw [List.dropWhile] at h
    by_cases hp : p a = true
    · rw [hp] at h
      exact ih c h
    · simp at hp
      rw [hp] at h
      simp at h
      exact h ▸ hp

theorem head_of_isPre {l₁ l₂ : List Char} {c : Char} (h : l₁ <+: l₂)
    (hc : l₁.head? = some c) : l₂.head? = some c := by
  obtain ⟨t, rfl⟩ := h
  cases l₁ with
  | nil => simp at hc
  | cons a as => simpa using hc

theorem pyStrip_isPre (l : List Char) : pyStrip l <+: trimLeft l := by
  rw [pyStrip]
  exact List.reverse_suffix.mp (by
    rw [List.reverse_reverse]
    exact List.dropWhile_suffix isPyWs)

theorem mem_pyStrip {l : List Char} {c : Char} (h : c ∈ pyStrip l) : c ∈ l := by
  have h1 : c ∈ (trimLeft l).reverse.dropWhile isPyWs := by
    rw [pyStrip] at h
    exact (List.mem_reverse).mp h
  have h2 : c ∈ (trimLeft l).reverse := (List.dropWhile_sublist isPyWs).subset h1
  have h3 : c ∈ trimLeft l := (List.mem_reverse).mp h2
  exact (List.dropWhile_sublist isPyWs).subset h3

theorem pyStrip_head {l : List Char} {c : Char} (h : (pyStrip l).head? = some c) :
    isPyWs c = false := by
  have h1 : (trimLeft l).head? = some c := head_of_isPre (pyStrip_isPre l) h
  exact head_dropWhile_not isPyWs l c h1

theorem pyStrip_last {l : List Char} {c : Char} (h : (pyStrip l).getLast? = some c) :
    isPyWs c = false := by
  rw [List.getLast?_eq_head?_reverse] at h
  rw [pyStrip, List.reverse_reverse] at h
  exact head_dropWhile_not isPyWs (trimLeft l).reverse c h

theorem newline_notin_map (l : List Char) :
    '\n' ∉ l.map fun c => if c = '\n' then ' ' else c := by
  intro h
  rcases List.mem_map.1 h with ⟨a, _, ha⟩
  by_cases h' : a = '\n'
  · rw [if_pos h'] at ha
    exact absurd ha (by decide)
  · rw [if_neg h'] at ha
    exact h' ha

/-- The three sanitization guarantees for any sanitized string: no
newline, no leading whitespace, no trailing whitespace. -/
theorem sanitizeStr_props (s : String) :
    '\n' ∉ (sanitizeStr s).data ∧
    (∀ c, (sanitizeStr s).data.head? = some c → isPyWs c = false) ∧
    (∀ c, (sanitizeStr s).data.getLast? = some c → isPyWs c = false) := by
  refine ⟨?_, ?_, ?_⟩
  · intro h
    exact newline_notin_map s.data (mem_pyStrip h)
  · intro c h
    exact pyStrip_head h
  · intro c h
    exact pyStrip_last h

/-- Every string value of the output record is a sanitized string. -/
theorem mem_processLease_str {t : List Char} {k : String} {v : String}
    (h : (k, FieldVal.str v) ∈ processLease t) : ∃ s, v = sanitizeStr s := by
  rcases List.mem_map.1 h with ⟨⟨k₀, fv⟩, _, hkv⟩
  cases fv with
  | str s =>
    refine ⟨s, ?_⟩
    rw [sanitizeField] at hkv
    exact (FieldVal.str.injEq _ _ ▸ congrArg Prod.snd hkv).symm ▸ rfl
  | flag b =>
    rw [sanitizeField] at hkv
    exact absurd (congrArg Prod.snd hkv) (by simp)

/-- C8 (amended): every string-valued field of the returned record has
each embedded newline replaced by a space and carries no leading or
trailing whitespace; the preview field is always the first 400 source
characters suffixed with "..." and sanitized the same way.  (Carriage
returns and other non-`\n` line breaks inside a value are preserved: the
clean-up pass only replaces `"\n"`.) -/
theorem fields_sanitized (t : List Char) :
    (∀ k v, (k, FieldVal.str v) ∈ processLease t →
      '\n' ∉ v.data ∧
      (∀ c, v.data.head? = some c → isPyWs c = false) ∧
      (∀ c, v.data.getLast? = some c → isPyWs c = false)) ∧
    getField (processLease t) "Lease Text Preview" =
      some (.str (sanitizeStr (String.mk (t.take 400 ++ "...".data)))) := by
  constructor
  · intro k v hmem
    rcases mem_processLease_str hmem with ⟨s, rfl⟩
    exact sanitizeStr_props s
  · exact getField_preview t

theorem fields_sanitized_witness :
    (("Lease Text Preview", FieldVal.str "hi\rthere you  ...") ∈
      processLease "hi\rthere\nyou  ".data) ∧
      '\n' ∉ ("hi\rthere you  ..." : String).data :=
  ⟨by decide,
    ((fields_sanitized "hi\rthere\nyou  ".data).1 "Lease Text Preview"
      "hi\rthere you  ..." (by decide)).1⟩

/-- C8 counterexample: a carriage return is a line-break character, but it
survives sanitization — the preview of `"a\rb"` still contains `'\r'`. -/
theorem sanitize_claim_counterexample :
    getField (processLease "a\rb".data) "Lease Text Preview" = some (.str "a\rb...") ∧
      '\r' ∈ ("a\rb..." : String).data :=
  ⟨by decide, by decide⟩

/-! ## Case-equivalence transfer lemmas -/

theorem char_eq_iff_toNat {a b : Char} : a = b ↔ a.toNat = b.toNat :=
  ⟨fun h => h ▸ rfl, fun h => Char.eq_of_val_eq (UInt32.ext h)⟩

theorem lowerCode_cases (a : Char) :
    (¬(65 ≤ a.toNat ∧ a.toNat ≤ 90) ∧ lowerCode a = a.toNat) ∨
    ((65 ≤ a.toNat ∧ a.toNat ≤ 90) ∧ lowerCode a = a.toNat + 32) := by
  rw [lowerCode]
  by_cases h : 65 ≤ a.toNat ∧ a.toNat ≤ 90
  · exact Or.inr ⟨h, if_pos h⟩
  · exact Or.inl ⟨h, if_neg h⟩

theorem lowerCode_toNat_rel {a b : Char} (h : lowerCode a = lowerCode b) :
    a.toNat = b.toNat ∨
    (a.toNat + 32 = b.toNat ∧ 65 ≤ a.toNat ∧ a.toNat ≤ 90) ∨
    (b.toNat + 32 = a.toNat ∧ 65 ≤ b.toNat ∧ b.toNat ≤ 90) := by
  rcases lowerCode_cases a with ⟨ha1, ha2⟩ | ⟨ha1, ha2⟩ <;>
    rcases lowerCode_cases b with ⟨hb1, hb2⟩ | ⟨hb1, hb2⟩ <;> omega

theorem lowerCode_ws {a b : Char} (h : lowerCode a = lowerCode b) :
    isPyWs a = isPyWs b := by
  have hr := lowerCode_toNat_rel h
  rw [Bool.eq_iff_iff]
  simp only [isPyWs, Bool.or_eq_true, decide_eq_true_eq]
  omega

theorem lowerCode_num {a b : Char} (h : lowerCode a = lowerCode b) :
    isNumCh a = isNumCh b := by
  have hr := lowerCode_toNat_rel h
  rw [Bool.eq_iff_iff]
  simp only [isNumCh, isDigitCh, Bool.or_eq_true, Bool.and_eq_true, decide_eq_true_eq]
  omega

theorem lowerCode_num_eq {a b : Char} (h : lowerCode a = lowerCode b)
    (hd : isNumCh a = true) : a = b := by
  have hr := lowerCode_toNat_rel h
  simp only [isNumCh, isDigitCh, Bool.or_eq_true, Bool.and_eq_true, decide_eq_true_eq] at hd
  exact char_eq_iff_toNat.mpr (by omega)

theorem lowerCode_digit {a b : Char} (h : lowerCode a = lowerCode b) :
    isDigitCh a = isDigitCh b := by
  have hr := lowerCode_toNat_rel h
  rw [Bool.eq_iff_iff]
  simp only [isDigitCh, Bool.and_eq_true, decide_eq_true_eq]
  omega

theorem lowerCode_dollar {a b : Char} (h : lowerCode a = lowerCode b) :
    (a = '$') ↔ (b = '$') := by
  have hr := lowerCode_toNat_rel h
  rw [char_eq_iff_toNat, char_eq_iff_toNat, show ('$').toNat = 36 from rfl]
  omega

theorem lowerCode_nl {a b : Char} (h : lowerCode a = lowerCode b) :
    (a = '\n') ↔ (b = '\n') := by
  have hr := lowerCode_toNat_rel h
  rw [char_eq_iff_toNat, char_eq_iff_toNat, show ('\n').toNat = 10 from rfl]
  omega

theorem lowerCode_dot {a b : Char} (h : lowerCode a = lowerCode b) :
    (a = '.') ↔ (b = '.') := by
  have hr := lowerCode_toNat_rel h
  rw [char_eq_iff_toNat, char_eq_iff_toNat, show ('.').toNat = 46 from rfl]
  omega

theorem caseEq_nil {l : List Char} (h : CaseEq [] l) : l = [] := by
  cases l with
  | nil => rfl
  | cons b bs => simp [CaseEq] at h

theorem caseEq_cons {a : Char} {as l : List Char} (h : CaseEq (a :: as) l) :
    ∃ b bs, l = b :: bs ∧ lowerCode a = lowerCode b ∧ CaseEq as bs := by
  cases l with
  | nil => simp [CaseEq] at h
  | cons b bs =>
    simp only [CaseEq, List.map_cons, List.cons.injEq] at h
    exact ⟨b, bs, rfl, h.1, h.2⟩

/-! ## Case-equivalence of the matchers -/

theorem ciMatch_caseEq (pat : List Char) : ∀ l₁ l₂, CaseEq l₁ l₂ →
    (ciMatch pat l₁ = none ∧ ciMatch pat l₂ = none) ∨
    (∃ r₁ r₂, ciMatch pat l₁ = some r₁ ∧ ciMatch pat l₂ = some r₂ ∧ CaseEq r₁ r₂) := by
  induction pat with
  | nil =>
    intro l₁ l₂ h
    exact Or.inr ⟨l₁, l₂, rfl, rfl, h⟩
  | cons p ps ih =>
    intro l₁ l₂ h
    cases l₁ with
    | nil =>
      rw [caseEq_nil h]
      exact Or.inl ⟨rfl, rfl⟩
    | cons a as =>
      rcases caseEq_cons h with ⟨b, bs, rfl, hab, ht⟩
      rw [ciMatch, ciMatch]
      by_cases hc : lowerCode a = lowerCode p
      · rw [if_pos hc, if_pos (hab ▸ hc)]
        exact ih as bs ht
      · rw [if_neg hc, if_neg (fun hb => hc (hab ▸ hb))]
        exact Or.inl ⟨rfl, rfl⟩

theorem ciMatch_isSome_caseEq (pat : List Char) {l₁ l₂ : List Char} (h : CaseEq l₁ l₂) :
    (ciMatch pat l₁).isSome = (ciMatch pat l₂).isSome := by
  rcases ciMatch_caseEq pat l₁ l₂ h with ⟨h1, h2⟩ | ⟨r₁, r₂, h1, h2, _⟩ <;>
    simp [h1, h2]

theorem containsCI_caseEq (pat : List Char) : ∀ l₁ l₂, CaseEq l₁ l₂ →
    containsCI pat l₁ = containsCI pat l₂ := by
  intro l₁
  induction l₁ with
  | nil =>
    intro l₂ h
    rw [caseEq_nil h]
  | cons a as ih =>
    intro l₂ h
    rcases caseEq_cons h with ⟨b, bs, rfl, hab, ht⟩
    rw [containsCI, containsCI, ih bs ht,
      ciMatch_isSome_caseEq pat (show CaseEq (a :: as) (b :: bs) from h)]

theorem skipWs_caseEq : ∀ l₁ l₂, CaseEq l₁ l₂ → CaseEq (skipWs l₁) (skipWs l₂) := by
  intro l₁
  induction l₁ with
  | nil =>
    intro l₂ h
    rw [caseEq_nil h]
    rfl
  | cons a as ih =>
    intro l₂ h
    rcases caseEq_cons h with ⟨b, bs, rfl, hab, ht⟩
    rw [skipWs, skipWs, List.dropWhile_cons, List.dropWhile_cons, ← lowerCode_ws hab]
    by_cases hw : isPyWs a = true
    · rw [if_pos hw, if_pos hw]
      exact ih bs ht
    · simp only [Bool.not_eq_true] at hw
      rw [hw]
      simp only [Bool.false_eq_true, if_false]
      exact h

theorem wordsRest_caseEq (ws : List (List Char)) : ∀ l₁ l₂, CaseEq l₁ l₂ →
    (wordsRest ws l₁ = none ∧ wordsRest ws l₂ = none) ∨
    (∃ r₁ r₂, wordsRest ws l₁ = some r₁ ∧ wordsRest ws l₂ = some r₂ ∧ CaseEq r₁ r₂) := by
  induction ws with
  | nil =>
    intro l₁ l₂ h
    exact Or.inr ⟨l₁, l₂, rfl, rfl, h⟩
  | cons w ws ih =>
    intro l₁ l₂ h
    rw [wordsRest, wordsRest]
    rcases ciMatch_caseEq w (skipWs l₁) (skipWs l₂) (skipWs_caseEq l₁ l₂ h) with
      ⟨h1, h2⟩ | ⟨r₁, r₂, h1, h2, hr⟩
    · rw [h1, h2]
      exact Or.inl ⟨rfl, rfl⟩
    · rw [h1, h2]
      exact ih r₁ r₂ hr

theorem wordsAt_caseEq (ws : List (List Char)) {l₁ l₂ : List Char} (h : CaseEq l₁ l₂) :
    (wordsAt ws l₁ = none ∧ wordsAt ws l₂ = none) ∨
    (∃ r₁ r₂, wordsAt ws l₁ = some r₁ ∧ wordsAt ws l₂ = some r₂ ∧ CaseEq r₁ r₂) := by
  match ws with
  | [] => exact Or.inr ⟨l₁, l₂, rfl, rfl, h⟩
  | w :: ws =>
    rw [wordsAt, wordsAt]
    rcases ciMatch_caseEq w l₁ l₂ h with ⟨h1, h2⟩ | ⟨r₁, r₂, h1, h2, hr⟩
    · rw [h1, h2]
      exact Or.inl ⟨rfl, rfl⟩
    · rw [h1, h2]
      exact wordsRest_caseEq ws r₁ r₂ hr

theorem gapDollar_caseEq : ∀ (n : Nat) (l₁ l₂ : List Char), CaseEq l₁ l₂ →
    (gapDollar n l₁ = none ∧ gapDollar n l₂ = none) ∨
    (∃ r₁ r₂, gapDollar n l₁ = some r₁ ∧ gapDollar n l₂ = some r₂ ∧ CaseEq r₁ r₂) := by
  intro n l₁
  induction l₁ generalizing n with
  | nil =>
    intro l₂ h
    rw [caseEq_nil h]
    match n with
    | 0 => exact Or.inl ⟨rfl, rfl⟩
    | _ + 1 => exact Or.inl ⟨rfl, rfl⟩
  | cons a as ih =>
    intro l₂ h
    rcases caseEq_cons h with ⟨b, bs, rfl, hab, ht⟩
    by_cases hc : a = '$'
    · have hb : b = '$' := (lowerCode_dollar hab).mp hc
      match n with
      | 0 =>
        rw [gapDollar, gapDollar, if_pos hc, if_pos hb]
        exact Or.inr ⟨as, bs, rfl, rfl, ht⟩
      | m + 1 =>
        rw [gapDollar, gapDollar, if_pos hc, if_pos hb]
        exact Or.inr ⟨as, bs, rfl, rfl, ht⟩
    · have hb : ¬(b = '$') := fun hbb => hc ((lowerCode_dollar hab).mpr hbb)
      match n with
      | 0 =>
        rw [gapDollar, gapDollar, if_neg hc, if_neg hb]
        exact Or.inl ⟨rfl, rfl⟩
      | m + 1 =>
        rw [gapDollar, gapDollar, if_neg hc, if_neg hb]
        exact ih m bs ht

theorem takeWhile_num_caseEq : ∀ l₁ l₂, CaseEq l₁ l₂ →
    l₁.takeWhile isNumCh = l₂.takeWhile isNumCh ∧
    CaseEq (l₁.drop (l₁.takeWhile isNumCh).length) (l₂.drop (l₂.takeWhile isNumCh).length) := by
  intro l₁
  induction l₁ with
  | nil =>
    intro l₂ h
    rw [caseEq_nil h]
    exact ⟨rfl, rfl⟩
  | cons a as ih =>
    intro l₂ h
    rcases caseEq_cons h with ⟨b, bs, rfl, hab, ht⟩
    by_cases hn : isNumCh a = true
    · have hba : a = b := lowerCode_num_eq hab hn
      rcases ih bs ht with ⟨ih1, ih2⟩
      have e1 : (a :: as).takeWhile isNumCh = a :: as.takeWhile isNumCh := by
        rw [List.takeWhile_cons, if_pos hn]
      have e2 : (b :: bs).takeWhile isNumCh = b :: bs.takeWhile isNumCh := by
        rw [List.takeWhile_cons, if_pos (by rw [← lowerCode_num hab]; exact hn)]
      constructor
      · rw [e1, e2, hba, ih1]
      · rw [e1, e2]
        simpa using ih2
    · have hn' : isNumCh a = false := by
        simpa using hn
      have e1 : (a :: as).takeWhile isNumCh = [] := by
        rw [List.takeWhile_cons, hn']
        simp
      have e2 : (b :: bs).takeWhile isNumCh = [] := by
        rw [List.takeWhile_cons, ← lowerCode_num hab, hn']
        simp
      rw [e1, e2]
      exact ⟨rfl, by simpa using h⟩

theorem fracPart_caseEq : ∀ l₁ l₂, CaseEq l₁ l₂ → fracPart l₁ = fracPart l₂ := by
  intro l₁ l₂ h
  cases l₁ with
  | nil =>
    rw [caseEq_nil h]
  | cons a r =>
    rcases caseEq_cons h with ⟨b, bs, rfl, hab, ht⟩
    cases r with
    | nil =>
      rw [caseEq_nil ht]
      rfl
    | cons a2 r2 =>
      rcases caseEq_cons ht with ⟨b2, bs2, rfl, hab2, ht2⟩
      cases r2 with
      | nil =>
        rw [caseEq_nil ht2]
        rfl
      | cons a3 r3 =>
        rcases caseEq_cons ht2 with ⟨b3, bs3, rfl, hab3, ht3⟩
        rw [fracPart, fracPart]
        by_cases hcond : (a = '.' && isDigitCh a2 && isDigitCh a3) = true
        · simp only [Bool.and_eq_true, decide_eq_true_eq] at hcond
          obtain ⟨⟨hdot, hd2⟩, hd3⟩ := hcond
          have hdotb : b = '.' := (lowerCode_dot hab).mp hdot
          have hb2 : a2 = b2 := lowerCode_num_eq hab2 (by simp [isNumCh, hd2])
          have hb3 : a3 = b3 := lowerCode_num_eq hab3 (by simp [isNumCh, hd3])
          rw [if_pos (by simp [hdot, hd2, hd3]),
            if_pos (by simp [hdotb, ← hb2, ← hb3, hd2, hd3]), hdot, hdotb, hb2, hb3]
        · rw [if_neg hcond, if_neg (fun hb => hcond (by
            simp only [Bool.and_eq_true, decide_eq_true_eq] at hb ⊢
            obtain ⟨⟨hdot, hd2⟩, hd3⟩ := hb
            refine ⟨⟨(lowerCode_dot hab).mpr hdot, ?_⟩, ?_⟩
            · rw [lowerCode_digit hab2]; exact hd2
            · rw [lowerCode_digit hab3]; exact hd3))]

theorem capNum_caseEq {l₁ l₂ : List Char} (h : CaseEq l₁ l₂) : capNum l₁ = capNum l₂ := by
  rcases takeWhile_num_caseEq l₁ l₂ h with ⟨h1, h2⟩
  rw [capNum, capNum]
  simp only [h1]
  rw [fracPart_caseEq _ _ (h1 ▸ h2)]

theorem capAfterDollar_caseEq : ∀ l₁ l₂, CaseEq l₁ l₂ →
    capAfterDollar l₁ = capAfterDollar l₂ := by
  intro l₁ l₂ h
  cases l₁ with
  | nil =>
    rw [caseEq_nil h]
  | cons a as =>
    rcases caseEq_cons h with ⟨b, bs, rfl, hab, ht⟩
    rw [capAfterDollar, capAfterDollar, ← lowerCode_ws hab]
    by_cases hw : isPyWs a = true
    · rw [if_pos hw, if_pos hw]
      exact capNum_caseEq ht
    · rw [if_neg hw, if_neg hw]
      exact capNum_caseEq h

theorem finAt_caseEq (ws : List (List Char)) (g : Nat) {l₁ l₂ : List Char}
    (h : CaseEq l₁ l₂) : finAt ws g l₁ = finAt ws g l₂ := by
  rw [finAt, finAt]
  rcases wordsAt_caseEq ws h with ⟨h1, h2⟩ | ⟨r₁, r₂, h1, h2, hr⟩
  · rw [h1, h2]
  · rw [h1, h2]
    simp only [Option.some_bind]
    rcases gapDollar_caseEq g r₁ r₂ hr with ⟨h3, h4⟩ | ⟨s₁, s₂, h3, h4, hs⟩
    · rw [h3, h4]
    · rw [h3, h4]
      simp only [Option.some_bind]
      exact capAfterDollar_caseEq _ _ hs

theorem finSearch_caseEq (ws : List (List Char)) (g : Nat) : ∀ l₁ l₂, CaseEq l₁ l₂ →
    finSearch ws g l₁ = finSearch ws g l₂ := by
  intro l₁
  induction l₁ with
  | nil =>
    intro l₂ h
    rw [caseEq_nil h]
  | cons a as ih =>
    intro l₂ h
    rcases caseEq_cons h with ⟨b, bs, rfl, hab, ht⟩
    rw [finSearch, finSearch, finAt_caseEq ws g h, ih bs ht]

theorem petAt_caseEq {l₁ l₂ : List Char} (h : CaseEq l₁ l₂) : petAt l₁ = petAt l₂ := by
  rw [petAt, petAt, finAt_caseEq _ _ h, finAt_caseEq _ _ h, finAt_caseEq _ _ h]

theorem petSearch_caseEq : ∀ l₁ l₂, CaseEq l₁ l₂ → petSearch l₁ = petSearch l₂ := by
  intro l₁
  induction l₁ with
  | nil =>
    intro l₂ h
    rw [caseEq_nil h]
  | cons a as ih =>
    intro l₂ h
    rcases caseEq_cons h with ⟨b, bs, rfl, hab, ht⟩
    rw [petSearch, petSearch, petAt_caseEq h, ih bs ht]

theorem dotStarTo_caseEq (pat : List Char) : ∀ l₁ l₂, CaseEq l₁ l₂ →
    dotStarTo pat l₁ = dotStarTo pat l₂ := by
  intro l₁
  induction l₁ with
  | nil =>
    intro l₂ h
    rw [caseEq_nil h]
  | cons a as ih =>
    intro l₂ h
    rcases caseEq_cons h with ⟨b, bs, rfl, hab, ht⟩
    rw [dotStarTo, dotStarTo, ciMatch_isSome_caseEq pat h, ih bs ht]
    congr 1
    rw [Bool.eq_iff_iff]
    simp only [Bool.and_eq_true, decide_eq_true_eq, ne_eq]
    rw [lowerCode_nl hab]

theorem petsNPTail_caseEq {l₁ l₂ : List Char} (h : CaseEq l₁ l₂) :
    petsNPTail l₁ = petsNPTail l₂ := by
  cases l₁ with
  | nil =>
    rw [caseEq_nil h]
  | cons a as =>
    rcases caseEq_cons h with ⟨b, bs, rfl, hab, ht⟩
    rw [petsNPTail, petsNPTail, ← hab]
    by_cases hs : lowerCode a = lowerCode 's'
    · rw [if_pos hs, if_pos hs, dotStarTo_caseEq _ as bs ht,
        dotStarTo_caseEq _ (a :: as) (b :: bs) h]
    · rw [if_neg hs, if_neg hs, dotStarTo_caseEq _ (a :: as) (b :: bs) h]

theorem petsNPAt_caseEq {l₁ l₂ : List Char} (h : CaseEq l₁ l₂) :
    petsNPAt l₁ = petsNPAt l₂ := by
  rcases ciMatch_caseEq "pet".data l₁ l₂ h with ⟨h1, h2⟩ | ⟨r₁, r₂, h1, h2, hr⟩
  · simp only [petsNPAt, h1, h2]
  · simp only [petsNPAt, h1, h2]
    exact petsNPTail_caseEq hr

theorem petsNPSearch_caseEq : ∀ l₁ l₂, CaseEq l₁ l₂ →
    petsNPSearch l₁ = petsNPSearch l₂ := by
  intro l₁
  induction l₁ with
  | nil =>
    intro l₂ h
    rw [caseEq_nil h]
  | cons a as ih =>
    intro l₂ h
    rcases caseEq_cons h with ⟨b, bs, rfl, hab, ht⟩
    rw [petsNPSearch, petsNPSearch, petsNPAt_caseEq h, ih bs ht]

theorem petOverrideFires_caseEq {l₁ l₂ : List Char} (h : CaseEq l₁ l₂) :
    petOverrideFires l₁ = petOverrideFires l₂ := by
  rw [petOverrideFires, petOverrideFires, containsCI_caseEq _ _ _ h,
    petsNPSearch_caseEq _ _ h]

/-- C3 (amended): the financial-field rules are case-insensitive — two
case-equivalent texts yield identical Rent Amount, Security Deposit,
Pet Fee, Late Fee and NSF Fee record fields — but the tenant-name (and
address) patterns are compiled without `re.IGNORECASE` and are
case-sensitive. -/
theorem financial_rules_case_insensitive (t₁ t₂ : List Char) (h : CaseEq t₁ t₂) :
    getField (processLease t₁) "Rent Amount" = getField (processLease t₂) "Rent Amount" ∧
    getField (processLease t₁) "Security Deposit" = getField (processLease t₂) "Security Deposit" ∧
    getField (processLease t₁) "Pet Fee" = getField (processLease t₂) "Pet Fee" ∧
    getField (processLease t₁) "Late Fee" = getField (processLease t₂) "Late Fee" ∧
    getField (processLease t₁) "NSF Fee" = getField (processLease t₂) "NSF Fee" := by
  have hany : ∀ (ps : List (List Char → Option (List Char))),
      (∀ p ∈ ps, p t₁ = p t₂) → match_any ps t₁ = match_any ps t₂ := by
    intro ps
    induction ps with
    | nil => intro _; rfl
    | cons p ps ih =>
      intro hp
      rw [match_any, match_any, hp p (List.mem_cons_self p ps)]
      cases p t₂ with
      | none => exact ih fun q hq => hp q (List.mem_cons_of_mem p hq)
      | some v => rfl
  have hrent : rentVal t₁ = rentVal t₂ := by
    refine hany _ fun p hp => ?_
    simp only [List.mem_cons, List.not_mem_nil, or_false] at hp
    rcases hp with rfl | rfl | rfl <;> exact finSearch_caseEq _ _ _ _ h
  have hdep : depositVal t₁ = depositVal t₂ := by
    have hc : depositCap t₁ = depositCap t₂ := by
      refine hany _ fun p hp => ?_
      simp only [List.mem_cons, List.not_mem_nil, or_false] at hp
      rcases hp with rfl
      exact finSearch_caseEq _ _ _ _ h
    rw [depositVal, depositVal, depositOverride, depositOverride,
      containsCI_caseEq _ _ _ h, hc]
  have hpet : petFeeVal t₁ = petFeeVal t₂ := by
    have hc : petCap t₁ = petCap t₂ := by
      refine hany _ fun p hp => ?_
      simp only [List.mem_cons, List.not_mem_nil, or_false] at hp
      rcases hp with rfl
      exact petSearch_caseEq _ _ h
    rw [petFeeVal, petFeeVal, petOverrideFires_caseEq h, hc]
  have hlate : lateFeeVal t₁ = lateFeeVal t₂ := by
    refine hany _ fun p hp => ?_
    simp only [List.mem_cons, List.not_mem_nil, or_false] at hp
    rcases hp with rfl
    exact finSearch_caseEq _ _ _ _ h
  have hnsf : nsfFeeVal t₁ = nsfFeeVal t₂ := by
    refine hany _ fun p hp => ?_
    simp only [List.mem_cons, List.not_mem_nil, or_false] at hp
    rcases hp with rfl | rfl <;> exact finSearch_caseEq _ _ _ _ h
  refine ⟨?_, ?_, ?_, ?_, ?_⟩
  · rw [getField_rent, getField_rent, hrent]
  · rw [getField_deposit, getField_deposit, hdep]
  · rw [getField_petFee, getField_petFee, hpet]
  · rw [getField_lateFee, getField_lateFee, hlate]
  · rw [getField_nsfFee, getField_nsfFee, hnsf]

theorem financial_rules_case_insensitive_witness :
    CaseEq "BASE RENT: $1,200.00".data "base rent: $1,200.00".data ∧
      getField (processLease "BASE RENT: $1,200.00".data) "Rent Amount" =
        getField (processLease "base rent: $1,200.00".data) "Rent Amount" :=
  ⟨by decide,
    (financial_rules_case_insensitive "BASE RENT: $1,200.00".data
      "base rent: $1,200.00".data (by decide)).1⟩

/-- C3 counterexample: the tenant pattern is applied without
`re.IGNORECASE` — two texts differing only in the case of the `(Tenant`
marker produce different Tenant Name(s) fields. -/
theorem case_insensitive_claim_counterexample :
    CaseEq "Ann Lee (Tenant)".data "Ann Lee (TENANT)".data ∧
      getField (processLease "Ann Lee (Tenant)".data) "Tenant Name(s)" =
        some (.str "Ann Lee") ∧
      getField (processLease "Ann Lee (TENANT)".data) "Tenant Name(s)" =
        some (.str "Not found") :=
  ⟨by decide, by decide, by decide⟩

/-! ## Newline-blocking lemmas for the pet-override trigger -/

theorem bor_iff {a b : Bool} : (a || b) = true ↔ a = true ∨ b = true := by
  simp

theorem band_iff {a b : Bool} : (a && b) = true ↔ a = true ∧ b = true := by
  simp

theorem ciMatch_decomp : ∀ (pat l r : List Char), ciMatch pat l = some r →
    ∃ m, l = m ++ r ∧ m.map lowerCode = pat.map lowerCode := by
  intro pat
  induction pat with
  | nil =>
    intro l r h
    simp only [ciMatch, Option.some.injEq] at h
    subst h
    exact ⟨[], rfl, rfl⟩
  | cons p ps ih =>
    intro l r h
    match l with
    | [] => simp [ciMatch] at h
    | c :: cs =>
      rw [ciMatch] at h
      split at h
      · rcases ih cs r h with ⟨m, rfl, hm⟩
        refine ⟨c :: m, rfl, ?_⟩
        simp only [List.map_cons, hm, List.cons.injEq]
        exact ⟨by assumption, trivial⟩
      · exact absurd h (by simp)

theorem ciMatch_of_map : ∀ (pat m : List Char), m.map lowerCode = pat.map lowerCode →
    ∀ r, ciMatch pat (m ++ r) = some r := by
  intro pat
  induction pat with
  | nil =>
    intro m h r
    rw [List.map_eq_nil_iff.mp (h.trans (by simp))]
    rfl
  | cons p ps ih =>
    intro m h r
    cases m with
    | nil => simp at h
    | cons c cs =>
      simp only [List.map_cons, List.cons.injEq] at h
      rw [List.cons_append, ciMatch, if_pos h.1]
      exact ih cs h.2 r

theorem no_nl_of_map {pat m : List Char} (hpat : '\n' ∉ pat)
    (h : m.map lowerCode = pat.map lowerCode) : '\n' ∉ m := by
  intro hmem
  have h1 : lowerCode '\n' ∈ m.map lowerCode := List.mem_map_of_mem lowerCode hmem
  rw [h] at h1
  rcases List.mem_map.1 h1 with ⟨p, hp, hlp⟩
  have h10 : lowerCode p = 10 := by
    rw [hlp]
    rfl
  have hp10 : p = '\n' := by
    rcases lowerCode_cases p with ⟨_, he⟩ | ⟨_, he⟩
    · exact char_eq_iff_toNat.mpr (by rw [show ('\n').toNat = 10 from rfl]; omega)
    · omega
  exact hpat (hp10 ▸ hp)

theorem containsCI_iff (pat : List Char) : ∀ l,
    containsCI pat l = true ↔ ∃ s, s <:+ l ∧ (ciMatch pat s).isSome = true := by
  intro l
  induction l with
  | nil =>
    rw [containsCI]
    constructor
    · intro h
      exact ⟨[], List.suffix_refl [], h⟩
    · rintro ⟨s, hs, h⟩
      rw [List.suffix_nil.mp hs] at h
      exact h
  | cons c cs ih =>
    rw [containsCI]
    constructor
    · intro h
      rcases bor_iff.mp h with h1 | h2
      · exact ⟨c :: cs, List.suffix_refl _, h1⟩
      · rcases ih.mp h2 with ⟨s, hs, hm⟩
        exact ⟨s, hs.trans (List.suffix_cons c cs), hm⟩
    · rintro ⟨s, hs, hm⟩
      rcases List.suffix_cons_iff.mp hs with rfl | hs'
      · exact bor_iff.mpr (Or.inl hm)
      · exact bor_iff.mpr (Or.inr (ih.mpr ⟨s, hs', hm⟩))

theorem dotStarTo_iff (pat : List Char) : ∀ l, dotStarTo pat l = true ↔
    ∃ pre s, l = pre ++ s ∧ '\n' ∉ pre ∧ (ciMatch pat s).isSome = true := by
  intro l
  induction l with
  | nil =>
    rw [dotStarTo]
    constructor
    · intro h
      exact ⟨[], [], rfl, by simp, h⟩
    · rintro ⟨pre, s, hps, _, hm⟩
      rcases List.append_eq_nil.mp hps.symm with ⟨rfl, rfl⟩
      exact hm
  | cons c cs ih =>
    rw [dotStarTo]
    constructor
    · intro h
      rcases bor_iff.mp h with h1 | h2
      · exact ⟨[], c :: cs, rfl, by simp, h1⟩
      · rcases band_iff.mp h2 with ⟨hc, hd⟩
        have hc' : c ≠ '\n' := by simpa using hc
        rcases ih.mp hd with ⟨pre, s, rfl, hnl, hm⟩
        refine ⟨c :: pre, s, rfl, ?_, hm⟩
        intro hx
        rcases List.mem_cons.mp hx with h | h
        · exact hc' h.symm
        · exact hnl h
    · rintro ⟨pre, s, hps, hnl, hm⟩
      cases pre with
      | nil =>
        simp only [List.nil_append] at hps
        rw [hps]
        exact bor_iff.mpr (Or.inl hm)
      | cons p pre' =>
        simp only [List.cons_append, List.cons.injEq] at hps
        obtain ⟨rfl, rfl⟩ := hps
        have hc : c ≠ '\n' := fun h => hnl (h ▸ List.mem_cons_self c pre')
        refine bor_iff.mpr (Or.inr (band_iff.mpr ⟨by simpa using hc, ?_⟩))
        refine ih.mpr ⟨pre', s, rfl, ?_, hm⟩
        exact fun h => hnl (List.mem_cons_of_mem c h)

theorem petsNPSearch_iff : ∀ l, petsNPSearch l = true ↔
    ∃ s, s <:+ l ∧ petsNPAt s = true := by
  intro l
  induction l with
  | nil =>
    rw [petsNPSearch]
    constructor
    · intro h
      exact ⟨[], List.suffix_refl [], h⟩
    · rintro ⟨s, hs, h⟩
      rw [List.suffix_nil.mp hs] at h
      exact h
  | cons c cs ih =>
    rw [petsNPSearch]
    constructor
    · intro h
      rcases bor_iff.mp h with h1 | h2
      · exact ⟨c :: cs, List.suffix_refl _, h1⟩
      · rcases ih.mp h2 with ⟨s, hs, hm⟩
        exact ⟨s, hs.trans (List.suffix_cons c cs), hm⟩
    · rintro ⟨s, hs, hm⟩
      rcases List.suffix_cons_iff.mp hs with rfl | hs'
      · exact bor_iff.mpr (Or.inl hm)
      · exact bor_iff.mpr (Or.inr (ih.mpr ⟨s, hs', hm⟩))

theorem petsNPTail_decomp {r : List Char} (h : petsNPTail r = true) :
    ∃ r', dotStarTo "not permitted".data r' = true ∧
      (r' = r ∨ ∃ c, r = c :: r' ∧ c ≠ '\n') := by
  cases r with
  | nil => exact ⟨[], h, Or.inl rfl⟩
  | cons c r' =>
    rw [petsNPTail] at h
    by_cases hs : lowerCode c = lowerCode 's'
    · rw [if_pos hs] at h
      have hc : c ≠ '\n' := by
        intro hEq
        rw [hEq] at hs
        exact absurd hs (by decide)
      rcases bor_iff.mp h with h1 | h3
      · exact ⟨r', h1, Or.inr ⟨c, rfl, hc⟩⟩
      · exact ⟨c :: r', h3, Or.inl rfl⟩
    · rw [if_neg hs] at h
      exact ⟨c :: r', h, Or.inl rfl⟩

theorem petsNPAt_decomp {l : List Char} (h : petsNPAt l = true) :
    ∃ r r', ciMatch "pet".data l = some r ∧ dotStarTo "not permitted".data r' = true ∧
      (r' = r ∨ ∃ c, r = c :: r' ∧ c ≠ '\n') := by
  match hm : ciMatch "pet".data l with
  | none =>
    rw [petsNPAt, hm] at h
    exact absurd h (by simp)
  | some r =>
    have h2 : petsNPTail r = true := by
      simp only [petsNPAt, hm] at h
      exact h
    rcases petsNPTail_decomp h2 with ⟨r', hdot, hopt⟩
    exact ⟨r, r', rfl, hdot, hopt⟩

theorem suffix_append_cases {s x y : List Char} (h : s <:+ x ++ y) :
    s <:+ y ∨ ∃ q, q <:+ x ∧ s = q ++ y := by
  rcases List.suffix_or_suffix_of_suffix h (List.suffix_append x y) with h1 | h2
  · exact Or.inl h1
  · rcases h2 with ⟨q, rfl⟩
    rcases h with ⟨p, hp⟩
    rw [← List.append_assoc] at hp
    exact Or.inr ⟨q, ⟨p, List.append_cancel_right hp⟩, rfl⟩

theorem containsCI_of_parts {pat q m d : List Char}
    (hm : m.map lowerCode = pat.map lowerCode) :
    containsCI pat (q ++ m ++ d) = true := by
  rw [containsCI_iff]
  refine ⟨m ++ d, ?_, ?_⟩
  · rw [List.append_assoc]
    exact List.suffix_append q (m ++ d)
  · rw [ciMatch_of_map pat m hm d]
    rfl

theorem containsCI_mono {pat s l : List Char} (hs : s <:+ l)
    (h : containsCI pat s = true) : containsCI pat l = true := by
  rw [containsCI_iff] at h ⊢
  rcases h with ⟨u, hu, hm⟩
  exact ⟨u, hu.trans hs, hm⟩

theorem nl_position {P r x b : List Char} (hP : '\n' ∉ P)
    (he : P ++ r = x ++ '\n' :: b) : P.length ≤ x.length := by
  by_contra hlt
  push_neg at hlt
  have h1 : P <+: x ++ '\n' :: b := he ▸ List.prefix_append P r
  have h2 : (x ++ ['\n']) <+: x ++ '\n' :: b := ⟨b, by simp⟩
  have h3 : (x ++ ['\n']) <+: P :=
    List.prefix_of_prefix_length_le h2 h1 (by simp; omega)
  exact hP (h3.subset (by simp))

/-- C10: the `pets?.*not permitted` trigger cannot span a newline.  For a
text split as `a ++ '\n' :: b` where "not permitted" does not occur in
the part before the newline, "pet" does not occur in the part after it,
and "no pets" occurs nowhere (so in particular for any text whose "pets"
mention sits on one line with "not permitted" only on later lines), the
pet-fee override does not fire and the Pet Fee field is rendered from the
ordinary pattern-chain capture. -/
theorem pet_gap_not_across_lines (a b : List Char)
    (h1 : containsCI "no pets".data (a ++ '\n' :: b) = false)
    (h2 : containsCI "not permitted".data a = false)
    (h3 : containsCI "pet".data b = false) :
    petOverrideFires (a ++ '\n' :: b) = false ∧
    getField (processLease (a ++ '\n' :: b)) "Pet Fee" =
      some (.str (sanitizeStr (moneyStr (petCap (a ++ '\n' :: b))))) := by
  have hnp : petsNPSearch (a ++ '\n' :: b) = false := by
    by_contra hc
    rw [Bool.not_eq_false] at hc
    rcases (petsNPSearch_iff _).mp hc with ⟨s, hs, hAt⟩
    rcases petsNPAt_decomp hAt with ⟨r, r', hciM, hdot, hopt⟩
    rcases (dotStarTo_iff _ r').mp hdot with ⟨pre, s₂, hr', hnlpre, hm2⟩
    match hmm : ciMatch "not permitted".data s₂ with
    | none => rw [hmm] at hm2; exact absurd hm2 (by simp)
    | some r₃ =>
    rcases ciMatch_decomp _ _ _ hmm with ⟨m₂, rfl, hmap₂⟩
    rcases ciMatch_decomp _ _ _ hciM with ⟨m, hsm, hmap⟩
    have hmnl : '\n' ∉ m := no_nl_of_map (by decide) hmap
    have hm2nl : '\n' ∉ m₂ := no_nl_of_map (by decide) hmap₂
    -- the whole matched region up to the end of "not permitted" is
    -- newline-free
    have hP : ∃ P, s = P ++ r₃ ∧ '\n' ∉ P ∧ ∃ q, P = q ++ m₂ := by
      rcases hopt with rfl | ⟨c, rfl, hcnl⟩
      · refine ⟨m ++ (pre ++ m₂), by simp [hsm, hr'], ?_, m ++ pre, by simp⟩
        intro hx
        rcases List.mem_append.mp hx with hx | hx
        · exact hmnl hx
        · rcases List.mem_append.mp hx with hx | hx
          · exact hnlpre hx
          · exact hm2nl hx
      · refine ⟨m ++ (c :: (pre ++ m₂)), by simp [hsm, hr'], ?_, m ++ c :: pre, by simp⟩
        intro hx
        rcases List.mem_append.mp hx with hx | hx
        · exact hmnl hx
        · rcases List.mem_cons.mp hx with hx | hx
          · exact hcnl hx.symm
          · rcases List.mem_append.mp hx with hx | hx
            · exact hnlpre hx
            · exact hm2nl hx
    rcases hP with ⟨P, hsP, hPnl, q, rfl⟩
    rcases suffix_append_cases hs with hsb | ⟨x', hx'a, hsx⟩
    · -- the match sits inside '\n' :: b
      rcases List.suffix_cons_iff.mp hsb with rfl | hsb'
      · -- s starts with the newline itself: "pet" cannot match there
        cases hm3 : m with
        | nil => rw [hm3] at hmap; simp at hmap
        | cons c0 m' =>
          rw [hm3] at hsm
          have : c0 = '\n' := by
            have := congrArg List.head? hsm
            simpa using this.symm
          rw [hm3] at hmnl
          exact hmnl (this ▸ List.mem_cons_self c0 m')
      · -- s is inside b: "pet" occurs in b
        have : containsCI "pet".data b = true :=
          containsCI_mono hsb' ((containsCI_iff _ s).mpr ⟨s, List.suffix_refl s, by rw [hciM]; rfl⟩)
        rw [h3] at this
        exact absurd this (by simp)
    · -- the match starts inside a: "not permitted" ends before the
      -- newline, hence occurs inside a
      have he : (q ++ m₂) ++ r₃ = x' ++ '\n' :: b := hsP ▸ hsx
      have hlen := nl_position hPnl he
      have hpre1 : (q ++ m₂) <+: x' ++ '\n' :: b := he ▸ List.prefix_append _ r₃
      have hpre2 : x' <+: x' ++ '\n' :: b := List.prefix_append x' _
      have hPx : (q ++ m₂) <+: x' := List.prefix_of_prefix_length_le hpre1 hpre2 hlen
      rcases hPx with ⟨d, rfl⟩
      have : containsCI "not permitted".data (q ++ m₂ ++ d) = true :=
        containsCI_of_parts hmap₂
      have hina : containsCI "not permitted".data a = true := containsCI_mono hx'a this
      rw [h2] at hina
      exact absurd hina (by simp)
  have hfire : petOverrideFires (a ++ '\n' :: b) = false := by
    rw [petOverrideFires, h1, hnp]
    rfl
  have hval : petFeeVal (a ++ '\n' :: b) = petCap (a ++ '\n' :: b) := by
    rw [petFeeVal, hfire]
    simp
  exact ⟨hfire, by rw [getField_petFee, hval]⟩

theorem pet_gap_not_across_lines_witness :
    containsCI "no pets".data ("pets".data ++ '\n' :: "not permitted".data) = false ∧
      containsCI "not permitted".data "pets".data = false ∧
      containsCI "pet".data "not permitted".data = false ∧
      petOverrideFires ("pets".data ++ '\n' :: "not permitted".data) = false :=
  ⟨by decide, by decide, by decide,
    (pet_gap_not_across_lines "pets".data "not permitted".data
      (by decide) (by decide) (by decide)).1⟩

/-! ## Fidelity checks

Concrete evaluations of the embedded matchers, cross-checked against the
behaviour of the source patterns under Python's `re` module (including
the greedy/backtracking corner cases). -/
theorem fidelity01 : getField (processLease "Pet fee: $300.00. No pets allowed.".data) "Pet Fee"
    = some (.str "$Not applicable") := by decide
theorem fidelity02 : getField (processLease "Base Rent: $1,200.00".data) "Rent Amount"
    = some (.str "$1,200.00") := by decide
theorem fidelity03 : getField (processLease "hello".data) "Extraction Confidence"
    = some (.str "0%") := by decide
theorem fidelity04 : getField (processLease "hi\rthere\nyou  ".data) "Lease Text Preview"
    = some (.str "hi\rthere you  ...") := by decide
theorem fidelity05 : rentVal "Base Rent: $1,450.00 monthly".data = some "1,450.00".data := by decide
theorem fidelity06 : rentVal "no money here".data = none := by decide
theorem fidelity07 : depositVal "Security Deposit $500.00".data = some "500.00".data := by decide
theorem fidelity08 : depositVal "Security Deposit $500.00 but you are Not Required To Pay A Security Deposit".data
    = some "0.00".data := by decide
theorem fidelity09 : petFeeVal "Pet fee: $300.00. No pets allowed.".data = some "Not applicable".data := by decide
theorem fidelity10 : petFeeVal "Pet deposit of $300.00 applies".data = some "300.00".data := by decide
theorem fidelity11 : petsNPSearch "pets are not permitted".data = true := by decide
theorem fidelity12 : petsNPSearch "pets\nnot permitted".data = false := by decide
theorem fidelity13 : lateFeeVal "Late fee is $25".data = some "25".data := by decide
theorem fidelity14 : nsfFeeVal "NSF Fee: $30.00".data = some "30.00".data := by decide
theorem fidelity15 : startDateVal "shall begin on January 1, 2025 and".data = some "January 1, 2025".data := by decide
theorem fidelity16 : endDateVal "and end on December 31, 2025.".data = some "December 31, 2025".data := by decide
theorem fidelity17 : startDateVal "begin on 2025".data = none := by decide
theorem fidelity18 : insuranceRequired "hello".data = true := by decide
theorem fidelity19 : evictionClause "in default of".data = true := by decide
theorem fidelity20 : tenantVal "Ann Lee (Tenant)".data = some "Ann Lee".data := by decide
theorem fidelity21 : tenantVal "Ann Lee (TENANT)".data = none := by decide
theorem fidelity22 : landlordVal "Jane Doe (Landlord)".data = some "Jane Doe".data := by decide
theorem fidelity23 : landlordVal "JANE DOE (LANDLORD)".data = some "JANE DOE".data := by decide
theorem fidelity24 : tenantVal "John Smith and Mary Jane Smith (the Tenants)".data = some "Jane Smith".data := by decide
theorem fidelity25 : addressVal "lease for 1234 Elm Street, Austin, TX 78701 starting".data
    = some "1234 Elm Street, Austin, TX 78701".data := by decide
theorem fidelity26 : addressVal "at 1234 Elm Street, Austin, TX 78701 starting".data
    = some "1234 Elm Street, Austin, TX 78701".data := by decide
theorem fidelity27 : depositVal "Security Deposit $ 500.123".data = some "500.12".data := by decide
theorem fidelity28 : lateFeeVal "late fee $,,".data = some ",,".data := by decide
theorem fidelity29 : lateFeeVal "base rent ........ something long gap ........ $700".data = none := by decide
theorem fidelity30 : startDateVal "from on May123456".data = some "May123456".data := by decide
theorem fidelity31 : insuranceRequired "not required to maintain renters insurance".data = false := by decide
theorem fidelity32 : rentVal "base rentXXXXXXXXXXXXXXXXXXXX$5".data = some "5".data := by decide
theorem fidelity33 : rentVal "base rentXXXXXXXXXXXXXXXXXXXXX$5".data = none := by decide
theorem fidelity34 : rentVal "baserent$5".data = some "5".data := by decide
theorem fidelity35 : rentVal "Monthly rent $\n5".data = some "5".data := by decide
theorem fidelity36 : landlordVal "Landlord: Bob Roe, etc".data = some "Bob Roe".data := by decide
